import Mathlib

/-!
# Command screentest: the hand-off from flags to CheckHandler

A shallow embedding of `cmd/screentest/main.go`.  The function `mainWith` follows
`main` statement by statement, after `flag.Parse` has filled in the flag variables;
`flagParse` gives those variables their values (given on the command line, or the
default declared with the flag).

Go strings are modelled as lists of characters (`GoString`).  The separators that
`main` uses, `","` and `":"`, are ASCII, so cutting a UTF-8 string at them byte by
byte (as Go does) and cutting it character by character give the same pieces.

The packages `regexp` and `runtime`, `os.Args[0]` and the function `CheckHandler`
(declared elsewhere in package main) are parameters of the model, collected in `Env`.
-/

namespace Screentest

/-- A Go string, as the list of its characters. -/
abbrev GoString := List Char

/-! ## Package strings -/

/-- The function `strings.Index(s, substr)`: the offset of the first instance of `substr`
in `s`; `none` stands for Go's `-1`. -/
def Index : GoString → GoString → Option Nat
  | [], substr => if substr = [] then some 0 else none
  | c :: s, substr =>
    if substr.isPrefixOf (c :: s) then some 0 else (Index s substr).map (· + 1)

/-- The loop of `strings.Count` for a separator of two or more bytes: the next instance
is found and counted, and the search continues behind it.  Every round removes at least
one character, so `len(s) + 1` rounds are enough. -/
def countLoop (substr : GoString) : Nat → GoString → Nat
  | 0, _ => 0
  | fuel + 1, s =>
    match Index s substr with
    | none => 0
    | some i => countLoop substr fuel (s.drop (i + substr.length)) + 1

/-- The function `strings.Count(s, substr)`: the number of non-overlapping instances of
`substr` in `s`; for the empty `substr` it is the number of characters plus one, and
for a one-byte `substr` the number of occurrences of that byte. -/
def Count (s substr : GoString) : Nat :=
  match substr with
  | [] => s.length + 1
  | [c] => s.count c
  | _ => countLoop substr (s.length + 1) s

/-- The loop of `strings.explode`: `k` times one character is cut off the front of `s`;
the last piece holds the rest. -/
def explodeLoop : Nat → GoString → List GoString
  | 0, s => [s]
  | k + 1, [] => [] :: explodeLoop k []
  | k + 1, c :: s => [c] :: explodeLoop k s

/-- The function `strings.explode(s, n)`: `s` cut into its characters, at most `n`
pieces (all of them when `n < 0`), the last piece holding the rest. -/
def explode (s : GoString) (n : Int) : List GoString :=
  let l : Int := s.length
  let n := if n < 0 ∨ n > l then l else n
  if n > 0 then explodeLoop (n - 1).toNat s else []

/-- The loop of `strings.genSplit`: at most `k` cuts, at the successive instances of
`sep`; the piece kept is `s[:m+sepSave]`, the rest `s[m+len(sep):]`. -/
def genSplitLoop (sep : GoString) (sepSave : Nat) : Nat → GoString → List GoString
  | 0, s => [s]
  | k + 1, s =>
    match Index s sep with
    | none => [s]
    | some m => s.take (m + sepSave) :: genSplitLoop sep sepSave k (s.drop (m + sep.length))

/-- The function `strings.genSplit(s, sep, sepSave, n)`. -/
def genSplit (s sep : GoString) (sepSave : Nat) (n : Int) : List GoString :=
  if n = 0 then []
  else if sep = [] then explode s n
  else
    let n := if n < 0 then (Count s sep : Int) + 1 else n
    let n := if n > (s.length : Int) + 1 then (s.length : Int) + 1 else n
    genSplitLoop sep sepSave (n - 1).toNat s

/-- The function `strings.Split(s, sep)`. -/
def Split (s sep : GoString) : List GoString := genSplit s sep 0 (-1)

/-- The function `strings.SplitN(s, sep, n)`. -/
def SplitN (s sep : GoString) (n : Int) : List GoString := genSplit s sep 0 n

/-- The function `strings.Join(elems, sep)`. -/
def Join : List GoString → GoString → GoString
  | [], _ => []
  | [e], _ => e
  | e :: es, sep => es.foldl (fun b s => b ++ sep ++ s) e

/-- The predicate `unicode.IsSpace`: the Latin-1 spaces `\t \n \v \f \r`, space, U+0085
and U+00A0, and beyond Latin-1 the characters with the property White_Space. -/
def IsSpace (r : Char) : Bool :=
  let n := r.toNat
  if n ≤ 0xFF then
    n = 0x09 ∨ n = 0x0A ∨ n = 0x0B ∨ n = 0x0C ∨ n = 0x0D ∨ n = 0x20 ∨ n = 0x85 ∨ n = 0xA0
  else
    n = 0x1680 ∨ (0x2000 ≤ n ∧ n ≤ 0x200A) ∨ n = 0x2028 ∨ n = 0x2029 ∨ n = 0x202F
      ∨ n = 0x205F ∨ n = 0x3000

/-- The function `strings.TrimLeftFunc(s, f)`. -/
def TrimLeftFunc (s : GoString) (f : Char → Bool) : GoString := s.dropWhile f

/-- The function `strings.TrimRightFunc(s, f)`. -/
def TrimRightFunc (s : GoString) (f : Char → Bool) : GoString :=
  (s.reverse.dropWhile f).reverse

/-- The function `strings.TrimFunc(s, f)`. -/
def TrimFunc (s : GoString) (f : Char → Bool) : GoString :=
  TrimRightFunc (TrimLeftFunc s f) f

/-- The function `strings.TrimSpace(s)`: `s` without its leading and trailing white
space (its ASCII fast path computes the same string as `TrimFunc(s, unicode.IsSpace)`). -/
def TrimSpace (s : GoString) : GoString := TrimFunc s IsSpace

/-! ## Maps -/

/-- A Go `map[string]string`, as the list of its entries, one per key. -/
abbrev GoMap := List (GoString × GoString)

/-- The map read `m[k]`, with `none` for an absent key. -/
def mapGet (m : GoMap) (k : GoString) : Option GoString :=
  match m with
  | [] => none
  | (k', v) :: rest => if k' = k then some v else mapGet rest k

/-- The map assignment `m[k] = v`: a former entry of `k` is replaced. -/
def mapSet (m : GoMap) (k v : GoString) : GoMap :=
  (k, v) :: m.filter (fun e => decide (e.1 ≠ k))

/-! ## Flags -/

/-- The flag variables of the command, as `flag.Parse` leaves them. -/
structure Flags where
  testURL : GoString
  wantURL : GoString
  update : Bool
  vars : GoString
  concurrency : Int
  debuggerURL : GoString
  run : GoString
  outputURL : GoString
  headers : GoString

/-- The flags found on the command line: `none` for a flag that is not given. -/
structure GivenFlags where
  test : Option GoString
  want : Option GoString
  u : Option Bool
  v : Option GoString
  c : Option Int
  d : Option GoString
  run : Option GoString
  o : Option GoString
  headers : Option GoString

/-- The default of flag `-c`, `(runtime.NumCPU()+1)/2`.  The argument is a count of
logical CPUs, so the sum stays far inside the range of `int`. -/
def defaultConcurrency (numCPU : Int) : Int := (numCPU + 1).tdiv 2

/-- The declarations of the flag variables followed by `flag.Parse()`: every variable
holds the value given on the command line, or else the default of its declaration. -/
def flagParse (numCPU : Int) (g : GivenFlags) : Flags :=
  { testURL := g.test.getD []
    wantURL := g.want.getD []
    update := g.u.getD false
    vars := g.v.getD []
    concurrency := g.c.getD (defaultConcurrency numCPU)
    debuggerURL := g.d.getD []
    run := g.run.getD []
    outputURL := g.o.getD []
    headers := g.headers.getD [] }

/-! ## The options record and the surroundings of main -/

/-- Modelled from the spec: the type `CheckOptions` is declared outside
`cmd/screentest/main.go`; it is the single configuration record of the invocation
surface, with the fields that `main` assigns.  A nil slice is the empty list, a nil
`Filter` is `none`. -/
structure CheckOptions where
  TestURL : GoString
  WantURL : GoString
  Update : Bool
  MaxConcurrency : Int
  Vars : GoMap
  DebuggerURL : GoString
  OutputURL : GoString
  Headers : List GoString
  Filter : Option (GoString → Bool)

/-- What `main` uses and does not define: the number of CPUs, the name the command was
started under, package regexp, and `CheckHandler` (an error is `some e`, nil is `none`). -/
structure Env (Err Re : Type) where
  numCPU : Int
  argv0 : GoString
  compile : GoString → Except Err Re
  matchString : Re → GoString → Bool
  checkHandler : GoString → CheckOptions → Option Err

/-- The errors that `main` hands to `log.Fatal`. -/
inductive Fatal (Err : Type) where
  /-- The error `fmt.Errorf("invalid key value pair, %q", pair)`. -/
  | invalidPair (pair : GoString)
  /-- The error returned by `regexp.Compile`. -/
  | compileErr (e : Err)
  /-- The error returned by `CheckHandler`. -/
  | handlerErr (e : Err)

/-- How the process ends. -/
inductive Exit (Err : Type) where
  /-- The function `main` returns. -/
  | ok
  /-- The usage text is printed, then `os.Exit(1)`. -/
  | usage
  /-- The call `log.Fatal(e)`: the error is logged, then `os.Exit(1)`. -/
  | fatal (e : Fatal Err)

/-- A run of `main`: the calls of `CheckHandler` in order, and how the process ends. -/
structure Outcome (Err : Type) where
  calls : List (GoString × CheckOptions)
  exit : Exit Err

/-! ## Function main -/

/-- The name under which the installed command runs. -/
def screentestName : GoString := "screentest".toList

/-- The value `filepath.Join("cmd", "screentest", "testdata", "*")`, with the separator `/`. -/
def defaultGlob : GoString := "cmd/screentest/testdata/*".toList

/-- The body of the loop over the pairs of `-v` (lines 74-80), from a given pair on. -/
def parseVarsLoop (Err : Type) : List GoString → GoMap → Except (Fatal Err) GoMap
  | [], parsedVars => .ok parsedVars
  | pair :: rest, parsedVars =>
    match SplitN pair ":".toList 2 with
    | [key, value] => parseVarsLoop Err rest (mapSet parsedVars (TrimSpace key) (TrimSpace value))
    | _ => .error (.invalidPair pair)

/-- Lines 72-81 of `main`: the map `parsedVars`, or the error for `log.Fatal`. -/
def parseVars (Err : Type) (vars : GoString) : Except (Fatal Err) GoMap :=
  if vars ≠ [] then parseVarsLoop Err (Split vars ",".toList) [] else .ok []

/-- The function `main`, from line 62 on. -/
def mainWith {Err Re : Type} (env : Env Err Re) (f : Flags) (args : List GoString) :
    Outcome Err :=
  if args.length ≠ 1 ∧ env.argv0 = screentestName then
    { calls := [], exit := .usage }
  else
    let glob := match args with
      | [a] => a
      | _ => defaultGlob
    match parseVars Err f.vars with
    | .error e => { calls := [], exit := .fatal e }
    | .ok parsedVars =>
      let splitHeaders := if f.headers.length > 0 then Split f.headers ",".toList else []
      let opts : CheckOptions :=
        { TestURL := f.testURL
          WantURL := f.wantURL
          Update := f.update
          MaxConcurrency := f.concurrency
          Vars := parsedVars
          DebuggerURL := f.debuggerURL
          OutputURL := f.outputURL
          Headers := splitHeaders
          Filter := none }
      let compiled : Except Err CheckOptions :=
        if f.run ≠ [] then
          match env.compile f.run with
          | .error err => .error err
          | .ok re => .ok { opts with Filter := some (env.matchString re) }
        else .ok opts
      match compiled with
      | .error err => { calls := [], exit := .fatal (.compileErr err) }
      | .ok opts =>
        match env.checkHandler glob opts with
        | some err => { calls := [(glob, opts)], exit := .fatal (.handlerErr err) }
        | none => { calls := [(glob, opts)], exit := .ok }

/-- The command: the flags are parsed, then `main` runs on them. -/
def main {Err Re : Type} (env : Env Err Re) (g : GivenFlags) (args : List GoString) :
    Outcome Err :=
  mainWith env (flagParse env.numCPU g) args

/-! ## The words of the claims -/

/-- Following the spec's words: the text of `s` before its first `c` (all of `s` when
there is none). -/
def textBefore (c : Char) (s : GoString) : GoString := s.takeWhile (fun x => x != c)

/-- Following the spec's words: the text of `s` after its first `c`. -/
def textAfter (c : Char) (s : GoString) : GoString := (s.dropWhile (fun x => x != c)).drop 1

/-- Following the spec's words: the key that a piece `key:value` of `-v` supplies,
trim(text before the first colon). -/
def varKey (piece : GoString) : GoString := TrimSpace (textBefore ':' piece)

/-- Following the spec's words: the value that a piece `key:value` of `-v` supplies,
trim(text after the first colon). -/
def varValue (piece : GoString) : GoString := TrimSpace (textAfter ':' piece)

/-- The guard of line 64: the command was installed and did not get exactly one glob. -/
def usageExit {Err Re : Type} (env : Env Err Re) (args : List GoString) : Prop :=
  args.length ≠ 1 ∧ env.argv0 = screentestName

instance {Err Re : Type} (env : Env Err Re) (args : List GoString) :
    Decidable (usageExit env args) := by
  unfold usageExit; infer_instance

/-- The glob that `main` works on: its one argument, or the test data of the command. -/
def globOf (args : List GoString) : GoString :=
  match args with
  | [a] => a
  | _ => defaultGlob

/-- The options record as lines 87-103 fill it in, for a given map of variables and a
given filter. -/
def optionsOf (f : Flags) (parsedVars : GoMap) (filter : Option (GoString → Bool)) :
    CheckOptions :=
  { TestURL := f.testURL
    WantURL := f.wantURL
    Update := f.update
    MaxConcurrency := f.concurrency
    Vars := parsedVars
    DebuggerURL := f.debuggerURL
    OutputURL := f.outputURL
    Headers := if f.headers.length > 0 then Split f.headers ",".toList else []
    Filter := filter }

/-- The end of a run that got as far as `CheckHandler` (lines 104-106). -/
def exitOf {Err : Type} (r : Option Err) : Exit Err :=
  match r with
  | some err => .fatal (.handlerErr err)
  | none => .ok

/-- The assignments of the loop of lines 74-80 alone, for pairs that all have a colon. -/
def assignVars (pairs : List GoString) (m : GoMap) : GoMap :=
  pairs.foldl (fun acc pair => mapSet acc (varKey pair) (varValue pair)) m

/-! ## A sample run -/

/-- A sample of the surroundings of `main`: eight CPUs, the command started under another
name than the installed one, a stand-in for package regexp that knows literal patterns
only (a pattern holding `(` does not compile, any other pattern matches the names it
occurs in), and a `CheckHandler` that returns nil. -/
def sampleEnv : Env GoString GoString :=
  { numCPU := 8
    argv0 := "/tmp/go-build/screentest".toList
    compile := fun expr => if '(' ∈ expr then .error "missing closing )".toList else .ok expr
    matchString := fun re name => (Index name re).isSome
    checkHandler := fun _ _ => none }

/-- The sample environment, with the command started as `screentest`. -/
def installedEnv : Env GoString GoString :=
  { sampleEnv with argv0 := "screentest".toList }

/-- Sample flag values. -/
def sampleFlags : Flags :=
  { testURL := "http://localhost:6060".toList
    wantURL := "https://go.dev".toList
    update := true
    vars := "Host: a.example ,Token:x:y, Host :b.example".toList
    concurrency := 3
    debuggerURL := "ws://localhost:9222".toList
    run := "home".toList
    outputURL := "/tmp/out".toList
    headers := "Authorization:Bearer t,X-Debug, ".toList }

/-- The one argument of the sample runs. -/
def sampleArgs : List GoString := ["testdata/*.txt".toList]

/-- The map of variables that the sample flags give. -/
def sampleVars : GoMap :=
  [("Host".toList, "b.example".toList), ("Token".toList, "x:y".toList)]

/-- The options record of the sample run. -/
def sampleOptions : CheckOptions :=
  optionsOf sampleFlags sampleVars (some (sampleEnv.matchString "home".toList))

/-- A sample command line that gives `-test`, `-v` and `-run` and leaves `-c` out. -/
def sampleGiven : GivenFlags :=
  { test := some "http://localhost:6060".toList
    want := none
    u := none
    v := some "Host:a.example".toList
    c := none
    d := none
    run := some "home".toList
    o := none
    headers := none }

/-! ## Cutting a string at a character -/

theorem textBefore_append_textAfter (c : Char) (s : GoString) (h : c ∈ s) :
    s = textBefore c s ++ c :: textAfter c s := by
  induction s with
  | nil => simp at h
  | cons x xs ih =>
    by_cases hx : x = c
    · subst hx; simp [textBefore, textAfter, List.takeWhile, List.dropWhile]
    · have hc : c ∈ xs := by
        rcases List.mem_cons.mp h with h1 | h1
        · exact absurd h1.symm hx
        · exact h1
      have hne : (x != c) = true := by simpa using hx
      have := ih hc
      simp only [textBefore, textAfter, List.takeWhile, List.dropWhile, hne] at this ⊢
      simpa using this

theorem not_mem_textBefore (c : Char) (s : GoString) : c ∉ textBefore c s := by
  intro h
  have := List.mem_takeWhile_imp h
  simp at this

theorem textBefore_of_not_mem (c : Char) (s : GoString) (h : c ∉ s) : textBefore c s = s := by
  unfold textBefore
  rw [List.takeWhile_eq_self_iff]
  intro x hx
  have : x ≠ c := fun e => h (e ▸ hx)
  simpa using this

theorem Index_single (c : Char) (s : GoString) :
    Index s [c] = if c ∈ s then some (textBefore c s).length else none := by
  induction s with
  | nil => simp [Index]
  | cons x xs ih =>
    by_cases hx : x = c
    · subst hx
      simp [Index, List.isPrefixOf, textBefore, List.takeWhile]
    · have hne : (x != c) = true := by simpa using hx
      have hcx : ¬ c = x := fun e => hx e.symm
      have hbeq : (c == x) = false := by simpa using hcx
      simp only [Index, List.isPrefixOf, hbeq, Bool.false_and, ih, textBefore,
        List.takeWhile, hne, List.mem_cons, hcx, false_or]
      by_cases hm : c ∈ xs <;> simp [hm]

theorem take_textBefore (c : Char) (s : GoString) :
    s.take (textBefore c s).length = textBefore c s := by
  induction s with
  | nil => simp [textBefore]
  | cons x xs ih =>
    by_cases hx : (x != c) = true
    · simp only [textBefore, List.takeWhile, hx, List.length_cons, List.take_succ_cons] at ih ⊢
      rw [ih]
    · simp [textBefore, List.takeWhile, hx]

theorem drop_textBefore (c : Char) (s : GoString) :
    s.drop ((textBefore c s).length + 1) = textAfter c s := by
  induction s with
  | nil => simp [textBefore, textAfter]
  | cons x xs ih =>
    by_cases hx : (x != c) = true
    · simp only [textBefore, textAfter, List.takeWhile, List.dropWhile, hx, List.length_cons,
        List.drop_succ_cons] at ih ⊢
      rw [ih]
    · simp [textBefore, textAfter, List.takeWhile, List.dropWhile, hx]

theorem genSplitLoop_of_not_mem (c : Char) (k : Nat) (s : GoString) (h : c ∉ s) :
    genSplitLoop [c] 0 k s = [s] := by
  cases k with
  | zero => rfl
  | succ k => simp [genSplitLoop, Index_single, h]

theorem genSplitLoop_of_mem (c : Char) (k : Nat) (s : GoString) (h : c ∈ s) :
    genSplitLoop [c] 0 (k + 1) s = textBefore c s :: genSplitLoop [c] 0 k (textAfter c s) := by
  simp [genSplitLoop, Index_single, h, take_textBefore, drop_textBefore]

theorem count_textAfter (c : Char) (s : GoString) (h : c ∈ s) :
    s.count c = (textAfter c s).count c + 1 := by
  have hb : (textBefore c s).count c = 0 := List.count_eq_zero.mpr (not_mem_textBefore c s)
  conv_lhs => rw [textBefore_append_textAfter c s h]
  rw [List.count_append, hb, List.count_cons]
  simp

theorem Split_single (c : Char) (s : GoString) :
    Split s [c] = genSplitLoop [c] 0 (s.count c) s := by
  have hle : s.count c ≤ s.length := List.count_le_length c s
  have h1 : ¬ ((s.count c : Int) + 1 > (s.length : Int) + 1) := by omega
  simp only [Split, genSplit, Count]
  simp [h1]

theorem SplitN_two (c : Char) (s : GoString) :
    SplitN s [c] 2 = if c ∈ s then [textBefore c s, textAfter c s] else [s] := by
  cases s with
  | nil => simp [SplitN, genSplit, genSplitLoop]
  | cons x xs =>
    have h1 : ¬ ((2 : Int) > ((x :: xs).length : Int) + 1) := by
      simp only [List.length_cons]; push_cast; omega
    have h2 : genSplit (x :: xs) [c] 0 2 = genSplitLoop [c] 0 1 (x :: xs) := by
      simp only [genSplit]
      have h0 : ¬ ((2 : Int) = 0) := by decide
      have h3 : ¬ ((2 : Int) < 0) := by decide
      have h4 : ¬ ([c] = ([] : GoString)) := by simp
      simp only [if_neg h0, if_neg h3, if_neg h4, if_neg h1]
      rfl
    rw [SplitN, h2]
    by_cases h : c ∈ x :: xs
    · rw [genSplitLoop_of_mem c 0 _ h, if_pos h]; rfl
    · rw [genSplitLoop_of_not_mem c 1 _ h, if_neg h]

theorem genSplitLoop_length (c : Char) (k : Nat) :
    ∀ s : GoString, s.count c = k → (genSplitLoop [c] 0 k s).length = k + 1 := by
  induction k with
  | zero => intro s _; rfl
  | succ k ih =>
    intro s hs
    have hm : c ∈ s := by
      by_contra hn
      rw [List.count_eq_zero.mpr hn] at hs
      omega
    rw [genSplitLoop_of_mem c k s hm, List.length_cons, ih]
    have := count_textAfter c s hm
    omega

theorem Join_cons_cons (e e2 : GoString) (es : List GoString) (sep : GoString) :
    Join (e :: e2 :: es) sep = e ++ sep ++ Join (e2 :: es) sep := by
  have key : ∀ (l : List GoString) (a b : GoString),
      l.foldl (fun b s => b ++ sep ++ s) (a ++ b) = a ++ l.foldl (fun b s => b ++ sep ++ s) b := by
    intro l
    induction l with
    | nil => intro a b; rfl
    | cons x xs ih =>
      intro a b
      simp only [List.foldl_cons]
      rw [← ih a (b ++ sep ++ x)]
      simp [List.append_assoc]
  cases es with
  | nil => simp [Join]
  | cons e3 es =>
    simp only [Join, List.foldl_cons]
    rw [← key]
    simp [List.append_assoc]

theorem genSplitLoop_ne_nil (sep : GoString) (sepSave k : Nat) (s : GoString) :
    genSplitLoop sep sepSave k s ≠ [] := by
  cases k with
  | zero => simp [genSplitLoop]
  | succ k =>
    simp only [genSplitLoop]
    split <;> simp

theorem genSplitLoop_join (c : Char) (k : Nat) :
    ∀ s : GoString, s.count c = k → Join (genSplitLoop [c] 0 k s) [c] = s := by
  induction k with
  | zero => intro s _; rfl
  | succ k ih =>
    intro s hs
    have hm : c ∈ s := by
      by_contra hn
      rw [List.count_eq_zero.mpr hn] at hs
      omega
    have hc : (textAfter c s).count c = k := by
      have := count_textAfter c s hm
      omega
    rw [genSplitLoop_of_mem c k s hm]
    obtain ⟨e2, es, he⟩ : ∃ e2 es, genSplitLoop [c] 0 k (textAfter c s) = e2 :: es := by
      cases h : genSplitLoop [c] 0 k (textAfter c s) with
      | nil => exact absurd h (genSplitLoop_ne_nil _ _ _ _)
      | cons e2 es => exact ⟨e2, es, rfl⟩
    have hj := ih (textAfter c s) hc
    rw [he] at hj ⊢
    rw [Join_cons_cons, hj]
    conv_rhs => rw [textBefore_append_textAfter c s hm]
    simp

theorem genSplitLoop_pieces (c : Char) (k : Nat) :
    ∀ s : GoString, s.count c = k →
      ∀ e ∈ genSplitLoop [c] 0 k s, c ∉ e ∧ ∃ a b : GoString, s = a ++ e ++ b ∧
        (a = [] ∨ ∃ a2, a = a2 ++ [c]) ∧ (b = [] ∨ ∃ b2, b = c :: b2) := by
  induction k with
  | zero =>
    intro s hs e he
    simp only [genSplitLoop, List.mem_singleton] at he
    subst he
    exact ⟨List.count_eq_zero.mp hs, [], [], by simp, Or.inl rfl, Or.inl rfl⟩
  | succ k ih =>
    intro s hs e he
    have hm : c ∈ s := by
      by_contra hn
      rw [List.count_eq_zero.mpr hn] at hs
      omega
    have hc : (textAfter c s).count c = k := by
      have := count_textAfter c s hm
      omega
    rw [genSplitLoop_of_mem c k s hm] at he
    rcases List.mem_cons.mp he with h1 | h1
    · subst h1
      refine ⟨not_mem_textBefore c s, [], c :: textAfter c s, ?_, Or.inl rfl, Or.inr ⟨_, rfl⟩⟩
      simpa using textBefore_append_textAfter c s hm
    · obtain ⟨hne, a, b, hab, ha, hb⟩ := ih (textAfter c s) hc e h1
      refine ⟨hne, textBefore c s ++ c :: a, b, ?_, Or.inr ?_, hb⟩
      · conv_lhs => rw [textBefore_append_textAfter c s hm, hab]
        simp
      · rcases ha with ha | ⟨a2, ha⟩
        · exact ⟨textBefore c s, by rw [ha]⟩
        · exact ⟨textBefore c s ++ c :: a2, by rw [ha]; simp⟩

theorem Split_length (c : Char) (s : GoString) : (Split s [c]).length = s.count c + 1 := by
  rw [Split_single]; exact genSplitLoop_length c _ s rfl

theorem Join_Split (c : Char) (s : GoString) : Join (Split s [c]) [c] = s := by
  rw [Split_single]; exact genSplitLoop_join c _ s rfl

theorem Split_pieces (c : Char) (s : GoString) :
    ∀ e ∈ Split s [c], c ∉ e ∧ ∃ a b : GoString, s = a ++ e ++ b ∧
      (a = [] ∨ ∃ a2, a = a2 ++ [c]) ∧ (b = [] ∨ ∃ b2, b = c :: b2) := by
  rw [Split_single]; exact genSplitLoop_pieces c _ s rfl

theorem textBefore_append_cons (c : Char) (e r : GoString) (h : c ∉ e) :
    textBefore c (e ++ c :: r) = e := by
  induction e with
  | nil => simp [textBefore, List.takeWhile]
  | cons x xs ih =>
    have hx : ¬ x = c := fun he => h (he ▸ List.mem_cons_self _ _)
    have hne : (x != c) = true := by simpa using hx
    have := ih (fun hm => h (List.mem_cons_of_mem _ hm))
    simp only [textBefore] at this
    simp only [textBefore, List.cons_append, List.takeWhile_cons, hne, if_true, this]

theorem textAfter_append_cons (c : Char) (e r : GoString) (h : c ∉ e) :
    textAfter c (e ++ c :: r) = r := by
  induction e with
  | nil => simp [textAfter, List.dropWhile]
  | cons x xs ih =>
    have hx : ¬ x = c := fun he => h (he ▸ List.mem_cons_self _ _)
    have hne : (x != c) = true := by simpa using hx
    have := ih (fun hm => h (List.mem_cons_of_mem _ hm))
    simp only [textAfter] at this
    simp only [textAfter, List.cons_append, List.dropWhile_cons, hne, if_true, this]

theorem Split_of_not_mem (c : Char) (e : GoString) (h : c ∉ e) : Split e [c] = [e] := by
  rw [Split_single]; exact genSplitLoop_of_not_mem c _ e h

theorem Split_append_cons (c : Char) (e r : GoString) (h : c ∉ e) :
    Split (e ++ c :: r) [c] = e :: Split r [c] := by
  have hcount : (e ++ c :: r).count c = r.count c + 1 := by
    rw [List.count_append, List.count_eq_zero.mpr h, List.count_cons]
    simp
  rw [Split_single, hcount, genSplitLoop_of_mem c _ _ (by simp),
    textBefore_append_cons c e r h, textAfter_append_cons c e r h, Split_single]

theorem Split_Join (c : Char) (l : List GoString) (hne : l ≠ []) (h : ∀ e ∈ l, c ∉ e) :
    Split (Join l [c]) [c] = l := by
  induction l with
  | nil => exact absurd rfl hne
  | cons e es ih =>
    cases es with
    | nil => exact Split_of_not_mem c e (h e (List.mem_cons_self _ _))
    | cons e2 es =>
      rw [Join_cons_cons, List.append_assoc, List.singleton_append,
        Split_append_cons c e _ (h e (List.mem_cons_self _ _)),
        ih (by simp) (fun x hx => h x (List.mem_cons_of_mem _ hx))]

/-! ## Maps -/

theorem mapGet_filter_ne (m : GoMap) (k k' : GoString) (h : k ≠ k') :
    mapGet (m.filter (fun e => decide (e.1 ≠ k))) k' = mapGet m k' := by
  induction m with
  | nil => rfl
  | cons e rest ih =>
    obtain ⟨a, b⟩ := e
    by_cases ha : a = k
    · subst ha
      rw [List.filter_cons_of_neg (by simp), ih]
      simp [mapGet, h]
    · rw [List.filter_cons_of_pos (by simpa using ha)]
      simp only [mapGet, ih]

theorem mapGet_mapSet (m : GoMap) (k v k' : GoString) :
    mapGet (mapSet m k v) k' = if k = k' then some v else mapGet m k' := by
  by_cases h : k = k'
  · simp [mapSet, mapGet, h]
  · simp only [mapSet, mapGet, if_neg h]
    exact mapGet_filter_ne m k k' h

theorem mapGet_isSome_iff (m : GoMap) (k : GoString) :
    (∃ v, mapGet m k = some v) ↔ k ∈ m.map Prod.fst := by
  induction m with
  | nil => simp [mapGet]
  | cons e rest ih =>
    obtain ⟨a, b⟩ := e
    by_cases ha : a = k
    · simp [mapGet, ha]
    · have hk : ¬ k = a := fun e => ha e.symm
      simp [mapGet, ha, hk, ih]

theorem mapGet_assignVars (pairs : List GoString) (m : GoMap) (k : GoString) :
    mapGet (assignVars pairs m) k =
      (((pairs.filter (fun p => decide (varKey p = k))).getLast?).map varValue).or
        (mapGet m k) := by
  induction pairs using List.reverseRecOn with
  | nil => simp [assignVars]
  | append_singleton ps p ih =>
    have hstep : assignVars (ps ++ [p]) m = mapSet (assignVars ps m) (varKey p) (varValue p) := by
      simp [assignVars, List.foldl_append]
    rw [hstep, mapGet_mapSet, List.filter_append]
    by_cases hk : varKey p = k
    · simp [List.filter, hk]
    · simp [List.filter, hk, ih]

theorem mem_keys_assignVars (pairs : List GoString) (k : GoString) :
    k ∈ (assignVars pairs []).map Prod.fst ↔ ∃ p ∈ pairs, varKey p = k := by
  rw [← mapGet_isSome_iff, mapGet_assignVars]
  simp only [mapGet, Option.or_none, Option.map_eq_some']
  constructor
  · rintro ⟨v, p, hp, _⟩
    have hmem := List.mem_of_mem_getLast? hp
    rw [List.mem_filter] at hmem
    exact ⟨p, hmem.1, by simpa using hmem.2⟩
  · rintro ⟨p, hp, hk⟩
    have hmem : p ∈ pairs.filter (fun p => decide (varKey p = k)) := by
      rw [List.mem_filter]; exact ⟨hp, by simpa using hk⟩
    cases hl : (pairs.filter (fun p => decide (varKey p = k))).getLast? with
    | none =>
      rw [List.getLast?_eq_none_iff] at hl
      rw [hl] at hmem
      simp at hmem
    | some q => exact ⟨varValue q, q, rfl, rfl⟩

/-! ## The loop over the pairs of -v -/

theorem parseVarsLoop_cons_of_mem {Err : Type} (pair : GoString) (rest : List GoString)
    (m : GoMap) (h : ':' ∈ pair) :
    parseVarsLoop Err (pair :: rest) m =
      parseVarsLoop Err rest (mapSet m (varKey pair) (varValue pair)) := by
  have hs : SplitN pair ":".toList 2 = [textBefore ':' pair, textAfter ':' pair] := by
    have := SplitN_two ':' pair
    rw [if_pos h] at this
    exact this
  simp only [parseVarsLoop, hs, varKey, varValue]

theorem parseVarsLoop_cons_of_not_mem {Err : Type} (pair : GoString) (rest : List GoString)
    (m : GoMap) (h : ':' ∉ pair) :
    parseVarsLoop Err (pair :: rest) m = .error (.invalidPair pair) := by
  have hs : SplitN pair ":".toList 2 = [pair] := by
    have := SplitN_two ':' pair
    rw [if_neg h] at this
    exact this
  simp only [parseVarsLoop, hs]

theorem parseVarsLoop_ok {Err : Type} (pairs : List GoString) :
    ∀ m : GoMap, (∀ p ∈ pairs, ':' ∈ p) →
      parseVarsLoop Err pairs m = .ok (assignVars pairs m) := by
  induction pairs with
  | nil => intro m _; rfl
  | cons p rest ih =>
    intro m h
    rw [parseVarsLoop_cons_of_mem p rest m (h p (List.mem_cons_self _ _)),
      ih _ (fun q hq => h q (List.mem_cons_of_mem _ hq))]
    rfl

theorem parseVarsLoop_first_bad {Err : Type} (l1 : List GoString) (p : GoString)
    (l2 : List GoString) :
    ∀ m : GoMap, (∀ q ∈ l1, ':' ∈ q) → ':' ∉ p →
      parseVarsLoop Err (l1 ++ p :: l2) m = .error (.invalidPair p) := by
  induction l1 with
  | nil => intro m _ hp; exact parseVarsLoop_cons_of_not_mem p l2 m hp
  | cons q rest ih =>
    intro m h hp
    rw [List.cons_append, parseVarsLoop_cons_of_mem q _ m (h q (List.mem_cons_self _ _))]
    exact ih _ (fun r hr => h r (List.mem_cons_of_mem _ hr)) hp

theorem exists_first_bad (pairs : List GoString) (h : ∃ p ∈ pairs, ':' ∉ p) :
    ∃ l1 p l2, pairs = l1 ++ p :: l2 ∧ (∀ q ∈ l1, ':' ∈ q) ∧ ':' ∉ p := by
  induction pairs with
  | nil => obtain ⟨p, hp, _⟩ := h; simp at hp
  | cons q rest ih =>
    by_cases hq : ':' ∈ q
    · obtain ⟨p, hp, hbad⟩ := h
      have hrest : ∃ p ∈ rest, ':' ∉ p := by
        rcases List.mem_cons.mp hp with h1 | h1
        · subst h1; exact absurd hq hbad
        · exact ⟨p, h1, hbad⟩
      obtain ⟨l1, p', l2, he, hl, hb⟩ := ih hrest
      refine ⟨q :: l1, p', l2, by simp [he], ?_, hb⟩
      intro r hr
      rcases List.mem_cons.mp hr with h1 | h1
      · subst h1; exact hq
      · exact hl r h1
    · exact ⟨[], q, rest, rfl, by simp, hq⟩

theorem parseVars_error_iff {Err : Type} (vars : GoString) :
    (∃ e, parseVars Err vars = .error e) ↔
      (vars ≠ [] ∧ ∃ p ∈ Split vars ",".toList, ':' ∉ p) := by
  constructor
  · rintro ⟨e, he⟩
    by_cases hv : vars = []
    · subst hv; simp [parseVars] at he
    · refine ⟨hv, ?_⟩
      by_contra hall
      have hall2 : ∀ p ∈ Split vars ",".toList, ':' ∈ p := by
        intro p hp
        by_contra hn
        exact hall ⟨p, hp, hn⟩
      simp only [parseVars, if_pos hv] at he
      rw [parseVarsLoop_ok _ _ hall2] at he
      cases he
  · rintro ⟨hv, hbad⟩
    obtain ⟨l1, p, l2, he, hl, hb⟩ := exists_first_bad _ hbad
    refine ⟨.invalidPair p, ?_⟩
    simp only [parseVars, if_pos hv]
    rw [he]
    exact parseVarsLoop_first_bad l1 p l2 [] hl hb

/-! ## The paths through main -/

theorem mainWith_usage {Err Re : Type} (env : Env Err Re) (f : Flags) (args : List GoString)
    (hu : usageExit env args) :
    mainWith env f args = { calls := [], exit := .usage } := by
  unfold usageExit at hu
  simp only [mainWith, if_pos hu]

theorem mainWith_vars_error {Err Re : Type} (env : Env Err Re) (f : Flags)
    (args : List GoString) (hu : ¬ usageExit env args) (e : Fatal Err)
    (hv : parseVars Err f.vars = .error e) :
    mainWith env f args = { calls := [], exit := .fatal e } := by
  unfold usageExit at hu
  simp only [mainWith, if_neg hu, hv]

theorem mainWith_compile_error {Err Re : Type} (env : Env Err Re) (f : Flags)
    (args : List GoString) (hu : ¬ usageExit env args) (m : GoMap)
    (hv : parseVars Err f.vars = .ok m) (hr : f.run ≠ []) (err : Err)
    (hc : env.compile f.run = .error err) :
    mainWith env f args = { calls := [], exit := .fatal (.compileErr err) } := by
  unfold usageExit at hu
  simp only [mainWith, if_neg hu, hv, if_pos hr, hc]

theorem mainWith_no_filter {Err Re : Type} (env : Env Err Re) (f : Flags)
    (args : List GoString) (hu : ¬ usageExit env args) (m : GoMap)
    (hv : parseVars Err f.vars = .ok m) (hr : f.run = []) :
    mainWith env f args =
      { calls := [(globOf args, optionsOf f m none)],
        exit := exitOf (env.checkHandler (globOf args) (optionsOf f m none)) } := by
  unfold usageExit at hu
  have hr2 : ¬ f.run ≠ [] := fun h => h hr
  simp only [mainWith, if_neg hu, hv, if_neg hr2]
  cases h : env.checkHandler (globOf args) (optionsOf f m none) with
  | none =>
    simp only [globOf, optionsOf] at h
    simp only [h, exitOf, globOf, optionsOf]
  | some err =>
    simp only [globOf, optionsOf] at h
    simp only [h, exitOf, globOf, optionsOf]

theorem mainWith_filter {Err Re : Type} (env : Env Err Re) (f : Flags)
    (args : List GoString) (hu : ¬ usageExit env args) (m : GoMap)
    (hv : parseVars Err f.vars = .ok m) (hr : f.run ≠ []) (re : Re)
    (hc : env.compile f.run = .ok re) :
    mainWith env f args =
      { calls := [(globOf args, optionsOf f m (some (env.matchString re)))],
        exit := exitOf (env.checkHandler (globOf args)
          (optionsOf f m (some (env.matchString re)))) } := by
  unfold usageExit at hu
  simp only [mainWith, if_neg hu, hv, if_pos hr, hc]
  cases h : env.checkHandler (globOf args) (optionsOf f m (some (env.matchString re))) with
  | none =>
    simp only [globOf, optionsOf] at h
    simp only [h, exitOf, globOf, optionsOf]
  | some err =>
    simp only [globOf, optionsOf] at h
    simp only [h, exitOf, globOf, optionsOf]

theorem mainWith_call {Err Re : Type} (env : Env Err Re) (f : Flags) (args : List GoString)
    (c : GoString × CheckOptions) (hc : c ∈ (mainWith env f args).calls) :
    ¬ usageExit env args ∧ (mainWith env f args).calls = [c] ∧
      ∃ m, parseVars Err f.vars = .ok m ∧
        ((f.run = [] ∧ c = (globOf args, optionsOf f m none)) ∨
          (f.run ≠ [] ∧ ∃ re, env.compile f.run = .ok re ∧
            c = (globOf args, optionsOf f m (some (env.matchString re))))) := by
  by_cases hu : usageExit env args
  · rw [mainWith_usage env f args hu] at hc; simp at hc
  · refine ⟨hu, ?_⟩
    cases hv : parseVars Err f.vars with
    | error e => rw [mainWith_vars_error env f args hu e hv] at hc; simp at hc
    | ok m =>
      by_cases hr : f.run = []
      · rw [mainWith_no_filter env f args hu m hv hr] at hc ⊢
        have hc2 : c = (globOf args, optionsOf f m none) := by simpa using hc
        exact ⟨by rw [hc2], m, rfl, Or.inl ⟨hr, hc2⟩⟩
      · cases hcomp : env.compile f.run with
        | error err =>
          rw [mainWith_compile_error env f args hu m hv hr err hcomp] at hc; simp at hc
        | ok re =>
          rw [mainWith_filter env f args hu m hv hr re hcomp] at hc ⊢
          have hc2 : c = (globOf args, optionsOf f m (some (env.matchString re))) := by
            simpa using hc
          exact ⟨by rw [hc2], m, rfl, Or.inr ⟨hr, re, rfl, hc2⟩⟩

theorem mainWith_reaches {Err Re : Type} (env : Env Err Re) (f : Flags) (args : List GoString)
    (hu : ¬ usageExit env args) (m : GoMap) (hv : parseVars Err f.vars = .ok m)
    (hr : f.run = [] ∨ ∃ re, env.compile f.run = .ok re) :
    ∃ filter, (mainWith env f args).calls = [(globOf args, optionsOf f m filter)] ∧
      (mainWith env f args).exit =
        exitOf (env.checkHandler (globOf args) (optionsOf f m filter)) := by
  by_cases h : f.run = []
  · exact ⟨none, by rw [mainWith_no_filter env f args hu m hv h]; exact ⟨rfl, rfl⟩⟩
  · rcases hr with hr | ⟨re, hre⟩
    · exact absurd hr h
    · exact ⟨some (env.matchString re), by
        rw [mainWith_filter env f args hu m hv h re hre]; exact ⟨rfl, rfl⟩⟩

theorem parseVars_ok_of_colons {Err : Type} (vars : GoString)
    (h : vars = [] ∨ ∀ p ∈ Split vars ",".toList, ':' ∈ p) :
    parseVars Err vars =
      .ok (if vars = [] then [] else assignVars (Split vars ",".toList) []) := by
  by_cases hv : vars = []
  · subst hv; rfl
  · rcases h with h | h
    · exact absurd h hv
    · simp only [parseVars, if_pos hv, if_neg hv]
      exact parseVarsLoop_ok _ _ h

theorem mainWith_call_options {Err Re : Type} (env : Env Err Re) (f : Flags)
    (args : List GoString) (glob : GoString) (opts : CheckOptions)
    (hc : (glob, opts) ∈ (mainWith env f args).calls) :
    glob = globOf args ∧ (mainWith env f args).calls = [(glob, opts)] ∧
      ∃ m filter, parseVars Err f.vars = .ok m ∧ opts = optionsOf f m filter := by
  obtain ⟨_, hone, m, hm, hcase⟩ := mainWith_call env f args (glob, opts) hc
  rcases hcase with ⟨_, h⟩ | ⟨_, re, _, h⟩
  · exact ⟨(Prod.mk.inj h).1, hone, m, none, hm, (Prod.mk.inj h).2⟩
  · exact ⟨(Prod.mk.inj h).1, hone, m, _, hm, (Prod.mk.inj h).2⟩

theorem mainWith_calls_length {Err Re : Type} (env : Env Err Re) (f : Flags)
    (args : List GoString) : (mainWith env f args).calls.length ≤ 1 := by
  cases h : (mainWith env f args).calls with
  | nil => simp
  | cons c rest =>
    have hc : c ∈ (mainWith env f args).calls := by rw [h]; exact List.mem_cons_self _ _
    have := (mainWith_call env f args c hc).2.1
    rw [h] at this
    rw [this]; simp

theorem Split_append_cons_last (c : Char) (b : GoString) (hb : c ∉ b) (k : Nat) :
    ∀ a : GoString, a.count c = k → Split (a ++ c :: b) [c] = Split a [c] ++ [b] := by
  induction k with
  | zero =>
    intro a ha
    have hna : c ∉ a := List.count_eq_zero.mp ha
    rw [Split_append_cons c a b hna, Split_of_not_mem c a hna, Split_of_not_mem c b hb]
    rfl
  | succ k ih =>
    intro a ha
    have hm : c ∈ a := by
      by_contra hn
      rw [List.count_eq_zero.mpr hn] at ha
      omega
    have hc : (textAfter c a).count c = k := by
      have := count_textAfter c a hm
      omega
    have hsplit : Split a [c] = textBefore c a :: Split (textAfter c a) [c] := by
      conv_lhs => rw [textBefore_append_textAfter c a hm]
      exact Split_append_cons c _ _ (not_mem_textBefore c a)
    have hwhole : a ++ c :: b = textBefore c a ++ c :: (textAfter c a ++ c :: b) := by
      conv_lhs => rw [textBefore_append_textAfter c a hm]
      simp
    rw [hwhole, Split_append_cons c _ _ (not_mem_textBefore c a), ih _ hc, hsplit]
    rfl

theorem parseVars_error_of_tail {Err : Type} (a b : GoString) (hcomma : ',' ∉ b)
    (hcolon : ':' ∉ b) : ∃ e, parseVars Err (a ++ ',' :: b) = .error e := by
  apply (@parseVars_error_iff Err (a ++ ',' :: b)).mpr
  refine ⟨by simp, b, ?_, hcolon⟩
  have h := Split_append_cons_last ',' b hcomma _ a rfl
  have h2 : Split (a ++ ',' :: b) ",".toList = Split a [','] ++ [b] := h
  rw [h2]
  simp

theorem mainWith_no_call_of_vars_error {Err Re : Type} (env : Env Err Re) (f : Flags)
    (args : List GoString) (e : Fatal Err) (hv : parseVars Err f.vars = .error e) :
    (mainWith env f args).calls = [] := by
  by_cases hu : usageExit env args
  · rw [mainWith_usage env f args hu]
  · rw [mainWith_vars_error env f args hu e hv]

theorem mainWith_called_iff {Err Re : Type} (env : Env Err Re) (f : Flags)
    (args : List GoString) :
    (∃ opts, (mainWith env f args).calls = [(globOf args, opts)]) ↔
      (¬ usageExit env args ∧ (∃ m, parseVars Err f.vars = .ok m) ∧
        (f.run = [] ∨ ∃ re, env.compile f.run = .ok re)) := by
  constructor
  · rintro ⟨opts, ho⟩
    have hc : (globOf args, opts) ∈ (mainWith env f args).calls := by
      rw [ho]; exact List.mem_singleton.mpr rfl
    obtain ⟨hu, _, m, hm, hcase⟩ := mainWith_call env f args _ hc
    refine ⟨hu, ⟨m, hm⟩, ?_⟩
    rcases hcase with ⟨hr, _⟩ | ⟨_, re, hre, _⟩
    · exact Or.inl hr
    · exact Or.inr ⟨re, hre⟩
  · rintro ⟨hu, ⟨m, hm⟩, hr⟩
    obtain ⟨filter, hcalls, _⟩ := mainWith_reaches env f args hu m hm hr
    exact ⟨_, hcalls⟩

theorem mainWith_calls_nil_iff {Err Re : Type} (env : Env Err Re) (f : Flags)
    (args : List GoString) :
    (mainWith env f args).calls = [] ↔
      ¬ (¬ usageExit env args ∧ (∃ m, parseVars Err f.vars = .ok m) ∧
        (f.run = [] ∨ ∃ re, env.compile f.run = .ok re)) := by
  constructor
  · intro hnil hcond
    obtain ⟨opts, ho⟩ := (mainWith_called_iff env f args).mpr hcond
    rw [hnil] at ho
    cases ho
  · intro hn
    cases h : (mainWith env f args).calls with
    | nil => rfl
    | cons c rest =>
      exfalso
      apply hn
      have hc : c ∈ (mainWith env f args).calls := by rw [h]; exact List.mem_cons_self _ _
      obtain ⟨hg, hone, _⟩ := mainWith_call_options env f args c.1 c.2 hc
      apply (mainWith_called_iff env f args).mp
      exact ⟨c.2, by rw [hone, hg]⟩

/-! ## The claims -/

/-- Claim C1: the map of template variables handed to `CheckHandler`.  Whenever `main`
calls `CheckHandler` with options `opts`: for the empty `-v` string `opts.Vars` is the
empty map; for a non-empty `-v` string whose comma-separated pieces all hold a colon, the
keys of `opts.Vars` are exactly the strings trim(text before the first colon) of the
pieces, and every key is mapped to trim(text after the first colon) of the last piece
with that key.  Such a call happens (exactly once) when the usage guard passes and the
`-run` pattern, if any, compiles. -/
theorem vars_handed_to_CheckHandler {Err Re : Type} (env : Env Err Re) (f : Flags)
    (args : List GoString) :
    (∀ glob opts, (glob, opts) ∈ (mainWith env f args).calls →
      (f.vars = [] → opts.Vars = []) ∧
      (f.vars ≠ [] → (∀ p ∈ Split f.vars ",".toList, ':' ∈ p) →
        (∀ k, k ∈ opts.Vars.map Prod.fst ↔ ∃ p ∈ Split f.vars ",".toList, varKey p = k) ∧
        (∀ k, mapGet opts.Vars k =
          (((Split f.vars ",".toList).filter
            (fun p => decide (varKey p = k))).getLast?).map varValue))) ∧
    ((f.vars = [] ∨ ∀ p ∈ Split f.vars ",".toList, ':' ∈ p) →
      ¬ usageExit env args → (f.run = [] ∨ ∃ re, env.compile f.run = .ok re) →
      ∃ opts, (mainWith env f args).calls = [(globOf args, opts)]) := by
  constructor
  · intro glob opts hc
    obtain ⟨_, _, m, hm, hcase⟩ := mainWith_call env f args (glob, opts) hc
    have hVars : opts.Vars = m := by
      rcases hcase with ⟨_, h⟩ | ⟨_, re, _, h⟩
      · rw [(Prod.mk.inj h).2]; rfl
      · rw [(Prod.mk.inj h).2]; rfl
    constructor
    · intro hv
      rw [parseVars_ok_of_colons f.vars (Or.inl hv), if_pos hv] at hm
      rw [hVars]; exact (Except.ok.inj hm).symm
    · intro hv hall
      rw [parseVars_ok_of_colons f.vars (Or.inr hall), if_neg hv] at hm
      have hm2 : opts.Vars = assignVars (Split f.vars ",".toList) [] := by
        rw [hVars]; exact (Except.ok.inj hm).symm
      rw [hm2]
      refine ⟨fun k => mem_keys_assignVars _ k, fun k => ?_⟩
      rw [mapGet_assignVars]
      simp [mapGet]
  · intro hall hu hr
    obtain ⟨filter, hcalls, _⟩ :=
      mainWith_reaches env f args hu _ (parseVars_ok_of_colons f.vars hall) hr
    exact ⟨_, hcalls⟩

theorem vars_handed_to_CheckHandler_witness :
    (globOf sampleArgs, sampleOptions) ∈ (mainWith sampleEnv sampleFlags sampleArgs).calls ∧
    sampleFlags.vars ≠ [] ∧ (∀ p ∈ Split sampleFlags.vars ",".toList, ':' ∈ p) ∧
    mapGet sampleOptions.Vars "Host".toList = some "b.example".toList ∧
    mapGet sampleOptions.Vars "Token".toList = some "x:y".toList ∧
    mapGet sampleOptions.Vars "Path".toList = none :=
  have hmem : (globOf sampleArgs, sampleOptions) ∈
      (mainWith sampleEnv sampleFlags sampleArgs).calls := List.mem_singleton.mpr rfl
  have h := ((vars_handed_to_CheckHandler sampleEnv sampleFlags sampleArgs).1 _ _ hmem).2
    (by decide) (by decide)
  ⟨hmem, by decide, by decide, (h.2 _).trans (by decide), (h.2 _).trans (by decide),
    (h.2 _).trans (by decide)⟩

/-- Claim C2, as the code has it: parsing the template variables fails exactly when the
`-v` string is non-empty and one of its comma-separated pieces holds no colon.  The error
is then `invalid key value pair` with the first such piece, `CheckHandler` is not called,
and (once the usage guard of line 64 has let the run pass) the run ends in `log.Fatal`
with that error; a run past the usage guard ends with this error in no other case.  A
comma always ends a pair: every `-v` string whose text after the last comma holds no
colon is rejected, in particular every string with a trailing comma, and so are `a:b,c`
and `a:b,` (with the pieces `c` and the empty piece); a value with a comma in it whose
pieces all hold a colon is not rejected. -/
theorem vars_parse_failure {Err Re : Type} (env : Env Err Re) (f : Flags)
    (args : List GoString) :
    ((∃ e, parseVars Err f.vars = .error e) ↔
      (f.vars ≠ [] ∧ ∃ p ∈ Split f.vars ",".toList, ':' ∉ p)) ∧
    (∀ l1 p l2, f.vars ≠ [] → Split f.vars ",".toList = l1 ++ p :: l2 →
      (∀ q ∈ l1, ':' ∈ q) → ':' ∉ p →
        parseVars Err f.vars = .error (.invalidPair p) ∧
        (mainWith env f args).calls = [] ∧
        (¬ usageExit env args →
          mainWith env f args = { calls := [], exit := .fatal (.invalidPair p) })) ∧
    (¬ usageExit env args →
      ((∃ p, (mainWith env f args).exit = .fatal (.invalidPair p)) ↔
        (f.vars ≠ [] ∧ ∃ p ∈ Split f.vars ",".toList, ':' ∉ p))) ∧
    (f.vars = "a:b,c".toList →
      parseVars Err f.vars = .error (.invalidPair "c".toList)) ∧
    (f.vars = "a:b,".toList → parseVars Err f.vars = .error (.invalidPair [])) ∧
    (∀ a b : GoString, f.vars = a ++ ',' :: b → ',' ∉ b → ':' ∉ b →
      (∃ e, parseVars Err f.vars = .error e) ∧ (mainWith env f args).calls = []) ∧
    (∀ a : GoString, f.vars = a ++ [','] →
      (∃ e, parseVars Err f.vars = .error e) ∧ (mainWith env f args).calls = []) ∧
    ((∀ p ∈ Split f.vars ",".toList, ':' ∈ p) →
      parseVars Err f.vars =
        .ok (if f.vars = [] then [] else assignVars (Split f.vars ",".toList) [])) := by
  have hfirst : ∀ l1 p l2, f.vars ≠ [] → Split f.vars ",".toList = l1 ++ p :: l2 →
      (∀ q ∈ l1, ':' ∈ q) → ':' ∉ p →
        parseVars Err f.vars = .error (.invalidPair p) := by
    intro l1 p l2 hv he hl hp
    simp only [parseVars, if_pos hv]
    rw [he]
    exact parseVarsLoop_first_bad l1 p l2 [] hl hp
  refine ⟨parseVars_error_iff f.vars, ?_, ?_, ?_, ?_, ?_, ?_, ?_⟩
  · intro l1 p l2 hv he hl hp
    have hpe := hfirst l1 p l2 hv he hl hp
    refine ⟨hpe, ?_, fun hu => mainWith_vars_error env f args hu _ hpe⟩
    by_cases hu : usageExit env args
    · rw [mainWith_usage env f args hu]
    · rw [mainWith_vars_error env f args hu _ hpe]
  · intro hu
    constructor
    · rintro ⟨p, hp⟩
      apply (@parseVars_error_iff Err f.vars).mp
      cases hv : parseVars Err f.vars with
      | error e => exact ⟨e, rfl⟩
      | ok m =>
        exfalso
        by_cases hr : f.run = []
        · rw [mainWith_no_filter env f args hu m hv hr] at hp
          simp only [exitOf] at hp
          split at hp <;> cases hp
        · cases hcomp : env.compile f.run with
          | error err =>
            rw [mainWith_compile_error env f args hu m hv hr err hcomp] at hp
            cases hp
          | ok re =>
            rw [mainWith_filter env f args hu m hv hr re hcomp] at hp
            simp only [exitOf] at hp
            split at hp <;> cases hp
    · rintro ⟨hv, hbad⟩
      obtain ⟨l1, p, l2, he, hl, hb⟩ := exists_first_bad _ hbad
      exact ⟨p, by rw [mainWith_vars_error env f args hu _ (hfirst l1 p l2 hv he hl hb)]⟩
  · intro hv
    exact hfirst ["a:b".toList] "c".toList [] (by rw [hv]; decide) (by rw [hv]; decide)
      (by decide) (by decide)
  · intro hv
    exact hfirst ["a:b".toList] [] [] (by rw [hv]; decide) (by rw [hv]; decide)
      (by decide) (by decide)
  · intro a b hv hcomma hcolon
    obtain ⟨e, he⟩ := @parseVars_error_of_tail Err a b hcomma hcolon
    rw [← hv] at he
    exact ⟨⟨e, he⟩, mainWith_no_call_of_vars_error env f args e he⟩
  · intro a hv
    obtain ⟨e, he⟩ := @parseVars_error_of_tail Err a [] (by simp) (by simp)
    rw [← hv] at he
    exact ⟨⟨e, he⟩, mainWith_no_call_of_vars_error env f args e he⟩
  · intro hall
    exact parseVars_ok_of_colons f.vars (Or.inr hall)

/-- Claim C2 fails as stated: the value `b,c:d` in `-v a:b,c:d` holds a comma and is not
rejected; the string parses as the two pairs `a:b` and `c:d`, and `main` calls
`CheckHandler` with both variables and returns normally. -/
theorem comma_in_value_accepted :
    parseVars GoString "a:b,c:d".toList =
      .ok [("c".toList, "d".toList), ("a".toList, "b".toList)] ∧
    (mainWith sampleEnv { sampleFlags with vars := "a:b,c:d".toList } sampleArgs).calls.map
      (fun c => c.2.Vars) = [[("c".toList, "d".toList), ("a".toList, "b".toList)]] ∧
    (mainWith sampleEnv { sampleFlags with vars := "a:b,c:d".toList } sampleArgs).exit = .ok :=
  ⟨rfl, rfl, rfl⟩

theorem vars_parse_failure_witness :
    sampleFlags.vars ≠ [] ∧ ¬ usageExit installedEnv sampleArgs ∧
    Split "a:b,c".toList ",".toList = ["a:b".toList] ++ "c".toList :: [] ∧
    mainWith installedEnv { sampleFlags with vars := "a:b,c".toList } sampleArgs =
      { calls := [], exit := .fatal (.invalidPair "c".toList) } :=
  ⟨by decide, by decide, by decide,
    ((vars_parse_failure installedEnv { sampleFlags with vars := "a:b,c".toList }
      sampleArgs).2.1 ["a:b".toList] "c".toList [] (by decide) (by decide) (by decide)
      (by decide)).2.2 (by decide)⟩

/-- Claim C3: the header list handed to `CheckHandler`.  Whenever `main` calls
`CheckHandler` with options `opts`: for the empty `-headers` string `opts.Headers` is
empty; for a non-empty one it has one entry more than the string has commas, no entry
holds a comma, the entries joined with commas are the string itself, and it is the only
non-empty list of comma-free strings that joins to the string (so the entries are the
pieces between the commas, in order, untrimmed).  Such a call happens (exactly once)
when the usage guard passes, `-v` parses and the `-run` pattern, if any, compiles. -/
theorem headers_handed_to_CheckHandler {Err Re : Type} (env : Env Err Re) (f : Flags)
    (args : List GoString) :
    (∀ glob opts, (glob, opts) ∈ (mainWith env f args).calls →
      (f.headers = [] → opts.Headers = []) ∧
      (f.headers ≠ [] →
        opts.Headers.length = f.headers.count ',' + 1 ∧
        (∀ e ∈ opts.Headers, ',' ∉ e) ∧
        (∀ l : List GoString, l ≠ [] → (∀ e ∈ l, ',' ∉ e) →
          Join l ",".toList = f.headers → opts.Headers = l)) ∧
      Join opts.Headers ",".toList = f.headers) ∧
    (¬ usageExit env args → (∃ m, parseVars Err f.vars = .ok m) →
      (f.run = [] ∨ ∃ re, env.compile f.run = .ok re) →
      ∃ opts, (mainWith env f args).calls = [(globOf args, opts)]) := by
  constructor
  · intro glob opts hc
    obtain ⟨_, _, m, _, hcase⟩ := mainWith_call env f args (glob, opts) hc
    have hH : opts.Headers = if f.headers.length > 0 then Split f.headers [','] else [] := by
      rcases hcase with ⟨_, h⟩ | ⟨_, re, _, h⟩
      · rw [(Prod.mk.inj h).2]; rfl
      · rw [(Prod.mk.inj h).2]; rfl
    by_cases hh : f.headers = []
    · have h0 : ¬ f.headers.length > 0 := by rw [hh]; simp
      rw [if_neg h0] at hH
      refine ⟨fun _ => hH, fun hne => absurd hh hne, ?_⟩
      rw [hH, hh]; rfl
    · have h0 : f.headers.length > 0 := List.length_pos.mpr hh
      rw [if_pos h0] at hH
      refine ⟨fun he => absurd he hh, fun _ => ⟨?_, ?_, ?_⟩, ?_⟩
      · rw [hH]; exact Split_length ',' f.headers
      · intro e he
        rw [hH] at he
        exact (Split_pieces ',' f.headers e he).1
      · intro l hl hcomma hjoin
        rw [hH, ← hjoin]
        exact Split_Join ',' l hl hcomma
      · rw [hH]; exact Join_Split ',' f.headers
  · rintro hu ⟨m, hm⟩ hr
    obtain ⟨filter, hcalls, _⟩ := mainWith_reaches env f args hu m hm hr
    exact ⟨_, hcalls⟩

theorem headers_handed_to_CheckHandler_witness :
    (globOf sampleArgs, sampleOptions) ∈ (mainWith sampleEnv sampleFlags sampleArgs).calls ∧
    sampleFlags.headers ≠ [] ∧
    sampleOptions.Headers = ["Authorization:Bearer t".toList, "X-Debug".toList, " ".toList] ∧
    sampleOptions.Headers.length = sampleFlags.headers.count ',' + 1 ∧
    Join sampleOptions.Headers ",".toList = sampleFlags.headers :=
  have hmem : (globOf sampleArgs, sampleOptions) ∈
      (mainWith sampleEnv sampleFlags sampleArgs).calls := List.mem_singleton.mpr rfl
  have h := (headers_handed_to_CheckHandler sampleEnv sampleFlags sampleArgs).1 _ _ hmem
  ⟨hmem, by decide, by decide, (h.2.1 (by decide)).1, h.2.2⟩

/-- Claim C4, as the code has it: `main` hands the headers on unchecked.  Whenever `main`
calls `CheckHandler` with options `opts`, every entry of `opts.Headers` is a stretch of
the `-headers` string that holds no comma and is bounded on either side by a comma or
an end of the string; nothing is said about a colon in it.  Whether the call happens
does not depend on the `-headers` string: it happens, and then exactly once, if and only
if the usage guard passes, `-v` parses and the `-run` pattern, if any, compiles, and with
any other `-headers` string in its place the run has as many calls as before. -/
theorem headers_entries_unchecked {Err Re : Type} (env : Env Err Re) (f : Flags)
    (args : List GoString) :
    (∀ glob opts, (glob, opts) ∈ (mainWith env f args).calls → ∀ e ∈ opts.Headers,
      ',' ∉ e ∧ ∃ a b : GoString, f.headers = a ++ e ++ b ∧
        (a = [] ∨ ∃ a2, a = a2 ++ [',']) ∧ (b = [] ∨ ∃ b2, b = ',' :: b2)) ∧
    (¬ usageExit env args → (∃ m, parseVars Err f.vars = .ok m) →
      (f.run = [] ∨ ∃ re, env.compile f.run = .ok re) →
      ∃ opts, (mainWith env f args).calls = [(globOf args, opts)] ∧
        opts.Headers = if f.headers = [] then [] else Split f.headers ",".toList) ∧
    ((∃ opts, (mainWith env f args).calls = [(globOf args, opts)]) ↔
      (¬ usageExit env args ∧ (∃ m, parseVars Err f.vars = .ok m) ∧
        (f.run = [] ∨ ∃ re, env.compile f.run = .ok re))) ∧
    ((mainWith env f args).calls = [] ↔
      ¬ (¬ usageExit env args ∧ (∃ m, parseVars Err f.vars = .ok m) ∧
        (f.run = [] ∨ ∃ re, env.compile f.run = .ok re))) ∧
    (∀ h2 : GoString,
      ((mainWith env { f with headers := h2 } args).calls = [] ↔
        (mainWith env f args).calls = []) ∧
      (mainWith env { f with headers := h2 } args).calls.length =
        (mainWith env f args).calls.length) := by
  refine ⟨?_, ?_, mainWith_called_iff env f args, mainWith_calls_nil_iff env f args, ?_⟩
  · intro glob opts hc e he
    obtain ⟨_, _, m, _, hcase⟩ := mainWith_call env f args (glob, opts) hc
    have hH : opts.Headers = if f.headers.length > 0 then Split f.headers [','] else [] := by
      rcases hcase with ⟨_, h⟩ | ⟨_, re, _, h⟩
      · rw [(Prod.mk.inj h).2]; rfl
      · rw [(Prod.mk.inj h).2]; rfl
    rw [hH] at he
    by_cases h0 : f.headers.length > 0
    · rw [if_pos h0] at he
      exact Split_pieces ',' f.headers e he
    · rw [if_neg h0] at he
      simp at he
  · rintro hu ⟨m, hm⟩ hr
    obtain ⟨filter, hcalls, _⟩ := mainWith_reaches env f args hu m hm hr
    refine ⟨_, hcalls, ?_⟩
    by_cases hh : f.headers = []
    · simp [optionsOf, hh]
    · have h0 : f.headers.length > 0 := List.length_pos.mpr hh
      simp only [optionsOf, if_pos h0, if_neg hh]
  · intro h2
    have hnil : (mainWith env { f with headers := h2 } args).calls = [] ↔
        (mainWith env f args).calls = [] := by
      rw [mainWith_calls_nil_iff env { f with headers := h2 } args,
        mainWith_calls_nil_iff env f args]
    refine ⟨hnil, ?_⟩
    by_cases hc : (mainWith env f args).calls = []
    · rw [hc, hnil.mpr hc]
    · have hc2 : ¬ (mainWith env { f with headers := h2 } args).calls = [] :=
        fun h => hc (hnil.mp h)
      have l1 := mainWith_calls_length env f args
      have l2 := mainWith_calls_length env { f with headers := h2 } args
      have p1 : 0 < (mainWith env f args).calls.length := List.length_pos.mpr hc
      have p2 : 0 < (mainWith env { f with headers := h2 } args).calls.length :=
        List.length_pos.mpr hc2
      omega

theorem headers_entries_unchecked_witness :
    (globOf sampleArgs, sampleOptions) ∈ (mainWith sampleEnv sampleFlags sampleArgs).calls ∧
    "X-Debug".toList ∈ sampleOptions.Headers ∧ ',' ∉ "X-Debug".toList ∧
    ∃ a b : GoString, sampleFlags.headers = a ++ "X-Debug".toList ++ b ∧
      (a = [] ∨ ∃ a2, a = a2 ++ [',']) ∧ (b = [] ∨ ∃ b2, b = ',' :: b2) :=
  have hmem : (globOf sampleArgs, sampleOptions) ∈
      (mainWith sampleEnv sampleFlags sampleArgs).calls := List.mem_singleton.mpr rfl
  have hin : "X-Debug".toList ∈ sampleOptions.Headers := by decide
  have h := (headers_entries_unchecked sampleEnv sampleFlags sampleArgs).1 _ _ hmem _ hin
  ⟨hmem, hin, h.1, h.2⟩

/-- Claim C4 fails as stated: with `-headers Accept` the one entry of the header list that
`main` hands to `CheckHandler` is `Accept`, which holds no colon. -/
theorem headers_entry_without_colon :
    ¬ (∀ c ∈ (mainWith sampleEnv { sampleFlags with headers := "Accept".toList }
        sampleArgs).calls, ∀ e ∈ c.2.Headers, ':' ∈ e) := by
  intro h
  have hmem : (globOf sampleArgs, optionsOf { sampleFlags with headers := "Accept".toList }
      sampleVars (some (sampleEnv.matchString "home".toList))) ∈
      (mainWith sampleEnv { sampleFlags with headers := "Accept".toList } sampleArgs).calls :=
    List.mem_singleton.mpr rfl
  have h2 := h _ hmem "Accept".toList (by decide)
  revert h2
  decide

/-- Claim C5: the name filter that `main` sets up.  With the empty `-run` string the
options handed to `CheckHandler` have no `Filter`; with a non-empty `-run` string that
compiles to `re` their `Filter` is the predicate `re.MatchString`; with a non-empty
`-run` string that does not compile `CheckHandler` is not called and the run does not
end normally, and (once the usage guard has passed and `-v` has parsed, which come
first) it ends in `log.Fatal` with the error of `regexp.Compile`.  In the first two
cases the call happens (exactly once) when the usage guard passes and `-v` parses. -/
theorem filter_set_up {Err Re : Type} (env : Env Err Re) (f : Flags) (args : List GoString) :
    (f.run = [] → ∀ glob opts, (glob, opts) ∈ (mainWith env f args).calls →
      opts.Filter = none) ∧
    (∀ re, f.run ≠ [] → env.compile f.run = .ok re →
      ∀ glob opts, (glob, opts) ∈ (mainWith env f args).calls →
        opts.Filter = some (env.matchString re)) ∧
    (∀ err, f.run ≠ [] → env.compile f.run = .error err →
      (mainWith env f args).calls = [] ∧ (mainWith env f args).exit ≠ .ok ∧
      (¬ usageExit env args → (∃ m, parseVars Err f.vars = .ok m) →
        mainWith env f args = { calls := [], exit := .fatal (.compileErr err) })) ∧
    (¬ usageExit env args → (∃ m, parseVars Err f.vars = .ok m) →
      (f.run = [] ∨ ∃ re, env.compile f.run = .ok re) →
      ∃ opts, (mainWith env f args).calls = [(globOf args, opts)]) := by
  refine ⟨?_, ?_, ?_, ?_⟩
  · intro hr glob opts hc
    obtain ⟨_, _, m, _, hcase⟩ := mainWith_call env f args (glob, opts) hc
    rcases hcase with ⟨_, h⟩ | ⟨hne, _⟩
    · rw [(Prod.mk.inj h).2]; rfl
    · exact absurd hr hne
  · intro re hr hre glob opts hc
    obtain ⟨_, _, m, _, hcase⟩ := mainWith_call env f args (glob, opts) hc
    rcases hcase with ⟨he, _⟩ | ⟨_, re2, hre2, h⟩
    · exact absurd he hr
    · rw [hre] at hre2
      cases hre2
      rw [(Prod.mk.inj h).2]; rfl
  · intro err hr herr
    by_cases hu : usageExit env args
    · rw [mainWith_usage env f args hu]
      exact ⟨rfl, (fun h => by cases h), fun hn => absurd hu hn⟩
    · cases hv : parseVars Err f.vars with
      | error e =>
        rw [mainWith_vars_error env f args hu e hv]
        refine ⟨rfl, (fun h => by cases h), fun _ hm => ?_⟩
        obtain ⟨m, hm⟩ := hm
        cases hm
      | ok m =>
        rw [mainWith_compile_error env f args hu m hv hr err herr]
        exact ⟨rfl, (fun h => by cases h), fun _ _ => rfl⟩
  · rintro hu ⟨m, hm⟩ hr
    obtain ⟨filter, hcalls, _⟩ := mainWith_reaches env f args hu m hm hr
    exact ⟨_, hcalls⟩

theorem filter_set_up_witness :
    sampleFlags.run ≠ [] ∧ sampleEnv.compile sampleFlags.run = .ok "home".toList ∧
    (globOf sampleArgs, sampleOptions) ∈ (mainWith sampleEnv sampleFlags sampleArgs).calls ∧
    sampleOptions.Filter = some (sampleEnv.matchString "home".toList) ∧
    (sampleOptions.Filter.map fun keep =>
      (keep "go.dev/home/index".toList, keep "go.dev/blog".toList)) = some (true, false) ∧
    mainWith sampleEnv { sampleFlags with run := "(home".toList } sampleArgs =
      { calls := [], exit := .fatal (.compileErr "missing closing )".toList) } :=
  have hmem : (globOf sampleArgs, sampleOptions) ∈
      (mainWith sampleEnv sampleFlags sampleArgs).calls := List.mem_singleton.mpr rfl
  ⟨by decide, rfl, hmem,
    (filter_set_up sampleEnv sampleFlags sampleArgs).2.1 "home".toList (by decide) rfl _ _ hmem,
    by decide,
    ((filter_set_up sampleEnv { sampleFlags with run := "(home".toList } sampleArgs).2.2.1
      "missing closing )".toList (by decide) rfl).2.2 (by decide) ⟨sampleVars, rfl⟩⟩

/-- Claim C6, as the code has it: `main` does not check the concurrency value.  Whatever
the value of `-c`, also one smaller than 1, the options handed to `CheckHandler` carry it
unchanged as `MaxConcurrency`; the call happens (exactly once) when the usage guard
passes, `-v` parses and the `-run` pattern, if any, compiles, and the run then ends as
the result of `CheckHandler` says. -/
theorem concurrency_handed_unchecked {Err Re : Type} (env : Env Err Re) (f : Flags)
    (args : List GoString) :
    (∀ glob opts, (glob, opts) ∈ (mainWith env f args).calls →
      opts.MaxConcurrency = f.concurrency) ∧
    (¬ usageExit env args → (∃ m, parseVars Err f.vars = .ok m) →
      (f.run = [] ∨ ∃ re, env.compile f.run = .ok re) →
      ∃ opts, (mainWith env f args).calls = [(globOf args, opts)] ∧
        opts.MaxConcurrency = f.concurrency ∧
        (mainWith env f args).exit = exitOf (env.checkHandler (globOf args) opts)) := by
  constructor
  · intro glob opts hc
    obtain ⟨_, _, m, _, hcase⟩ := mainWith_call env f args (glob, opts) hc
    rcases hcase with ⟨_, h⟩ | ⟨_, re, _, h⟩
    · rw [(Prod.mk.inj h).2]; rfl
    · rw [(Prod.mk.inj h).2]; rfl
  · rintro hu ⟨m, hm⟩ hr
    obtain ⟨filter, hcalls, hexit⟩ := mainWith_reaches env f args hu m hm hr
    exact ⟨_, hcalls, rfl, hexit⟩

theorem concurrency_handed_unchecked_witness :
    (globOf sampleArgs, optionsOf { sampleFlags with concurrency := -2 } sampleVars
      (some (sampleEnv.matchString "home".toList))) ∈
      (mainWith sampleEnv { sampleFlags with concurrency := -2 } sampleArgs).calls ∧
    (optionsOf { sampleFlags with concurrency := -2 } sampleVars
      (some (sampleEnv.matchString "home".toList))).MaxConcurrency = -2 :=
  have hmem : (globOf sampleArgs, optionsOf { sampleFlags with concurrency := -2 } sampleVars
      (some (sampleEnv.matchString "home".toList))) ∈
      (mainWith sampleEnv { sampleFlags with concurrency := -2 } sampleArgs).calls :=
    List.mem_singleton.mpr rfl
  ⟨hmem, (concurrency_handed_unchecked sampleEnv { sampleFlags with concurrency := -2 }
    sampleArgs).1 _ _ hmem⟩

/-- Claim C6 fails as stated: with `-c 0` the run is not aborted; `main` calls
`CheckHandler` with `MaxConcurrency` 0 and returns normally. -/
theorem concurrency_zero_reaches_CheckHandler :
    (0 : Int) < 1 ∧
    (mainWith sampleEnv { sampleFlags with concurrency := 0 } sampleArgs).calls.map
      (fun c => c.2.MaxConcurrency) = [0] ∧
    (mainWith sampleEnv { sampleFlags with concurrency := 0 } sampleArgs).exit = .ok :=
  ⟨by decide, rfl, rfl⟩

/-- Claim C7: the default concurrency.  When `-c` is not given, the `MaxConcurrency`
handed to `CheckHandler` is `(n+1)/2` in Go's integer division, `n` being the number of
CPUs; for `n ≥ 1` this is the quotient `(n+1)/2`, the ceiling of `n/2`, at least 1 and at
most `n`.  The call happens (exactly once) when the usage guard passes, `-v` parses and
the `-run` pattern, if any, compiles. -/
theorem default_concurrency {Err Re : Type} (env : Env Err Re) (g : GivenFlags)
    (args : List GoString) :
    (g.c = none → ∀ glob opts, (glob, opts) ∈ (main env g args).calls →
      opts.MaxConcurrency = (env.numCPU + 1).tdiv 2 ∧
      opts.MaxConcurrency = defaultConcurrency env.numCPU) ∧
    (∀ n : Int, 1 ≤ n →
      defaultConcurrency n = (n + 1) / 2 ∧
      defaultConcurrency n = ⌈(n : ℚ) / 2⌉ ∧
      1 ≤ defaultConcurrency n ∧ defaultConcurrency n ≤ n) ∧
    (g.c = none → ¬ usageExit env args → (∃ m, parseVars Err (g.v.getD []) = .ok m) →
      (g.run.getD [] = [] ∨ ∃ re, env.compile (g.run.getD []) = .ok re) →
      ∃ opts, (main env g args).calls = [(globOf args, opts)] ∧
        opts.MaxConcurrency = defaultConcurrency env.numCPU) := by
  refine ⟨?_, ?_, ?_⟩
  · intro hc glob opts hmem
    obtain ⟨_, _, m, filter, _, ho⟩ :=
      mainWith_call_options env (flagParse env.numCPU g) args glob opts hmem
    have h : opts.MaxConcurrency = defaultConcurrency env.numCPU := by
      rw [ho]; simp [optionsOf, flagParse, hc]
    exact ⟨h, h⟩
  · intro n hn
    have hd : defaultConcurrency n = (n + 1) / 2 := by
      unfold defaultConcurrency
      exact Int.tdiv_eq_ediv (by omega) (by decide)
    rw [hd]
    refine ⟨rfl, ?_, by omega, by omega⟩
    symm
    rw [Int.ceil_eq_iff]
    have h1 : 2 * ((n + 1) / 2) - 2 < n := by omega
    have h2 : n ≤ 2 * ((n + 1) / 2) := by omega
    have h1q : (2 : ℚ) * (((n + 1) / 2 : Int) : ℚ) - 2 < (n : ℚ) := by exact_mod_cast h1
    have h2q : (n : ℚ) ≤ 2 * (((n + 1) / 2 : Int) : ℚ) := by exact_mod_cast h2
    constructor
    · linarith
    · linarith
  · rintro hc hu ⟨m, hm⟩ hr
    obtain ⟨filter, hcalls, _⟩ :=
      mainWith_reaches env (flagParse env.numCPU g) args hu m hm hr
    refine ⟨_, hcalls, ?_⟩
    simp [optionsOf, flagParse, hc]

theorem default_concurrency_witness :
    sampleGiven.c = none ∧
    (globOf sampleArgs, optionsOf (flagParse 8 sampleGiven)
      [("Host".toList, "a.example".toList)] (some (sampleEnv.matchString "home".toList))) ∈
      (main sampleEnv sampleGiven sampleArgs).calls ∧
    (optionsOf (flagParse 8 sampleGiven) [("Host".toList, "a.example".toList)]
      (some (sampleEnv.matchString "home".toList))).MaxConcurrency = (8 + 1 : Int).tdiv 2 ∧
    (1 : Int) ≤ 7 ∧ defaultConcurrency 7 = 4 ∧ defaultConcurrency 7 = ⌈((7 : Int) : ℚ) / 2⌉ :=
  have hmem : (globOf sampleArgs, optionsOf (flagParse 8 sampleGiven)
      [("Host".toList, "a.example".toList)] (some (sampleEnv.matchString "home".toList))) ∈
      (main sampleEnv sampleGiven sampleArgs).calls := List.mem_singleton.mpr rfl
  have h := default_concurrency sampleEnv sampleGiven sampleArgs
  ⟨rfl, hmem, (h.1 rfl _ _ hmem).1, by decide, by decide, (h.2.1 7 (by decide)).2.1⟩

/-- Claim C8: the configuration hand-off.  Whenever `main` calls `CheckHandler`, that is
its only call of it, the glob is the one argument of the command (or the default), and
the options record has `TestURL`, `WantURL`, `Update`, `MaxConcurrency`, `DebuggerURL` and
`OutputURL` equal to the flag variables of `-test`, `-want`, `-u`, `-c`, `-d` and `-o`.
No run calls `CheckHandler` more than once, and the call happens when the usage guard
passes, `-v` parses and the `-run` pattern, if any, compiles. -/
theorem configuration_hand_off {Err Re : Type} (env : Env Err Re) (f : Flags)
    (args : List GoString) :
    (∀ glob opts, (glob, opts) ∈ (mainWith env f args).calls →
      (mainWith env f args).calls = [(glob, opts)] ∧ glob = globOf args ∧
      opts.TestURL = f.testURL ∧ opts.WantURL = f.wantURL ∧ opts.Update = f.update ∧
      opts.MaxConcurrency = f.concurrency ∧ opts.DebuggerURL = f.debuggerURL ∧
      opts.OutputURL = f.outputURL) ∧
    (mainWith env f args).calls.length ≤ 1 ∧
    (¬ usageExit env args → (∃ m, parseVars Err f.vars = .ok m) →
      (f.run = [] ∨ ∃ re, env.compile f.run = .ok re) →
      (mainWith env f args).calls.length = 1) := by
  refine ⟨?_, mainWith_calls_length env f args, ?_⟩
  · intro glob opts hc
    obtain ⟨hg, hone, m, filter, _, ho⟩ := mainWith_call_options env f args glob opts hc
    rw [ho] at hone ⊢
    exact ⟨hone, hg, rfl, rfl, rfl, rfl, rfl, rfl⟩
  · rintro hu ⟨m, hm⟩ hr
    obtain ⟨filter, hcalls, _⟩ := mainWith_reaches env f args hu m hm hr
    rw [hcalls]; rfl

theorem configuration_hand_off_witness :
    (globOf sampleArgs, sampleOptions) ∈ (mainWith sampleEnv sampleFlags sampleArgs).calls ∧
    (mainWith sampleEnv sampleFlags sampleArgs).calls = [(globOf sampleArgs, sampleOptions)] ∧
    sampleOptions.TestURL = "http://localhost:6060".toList ∧
    sampleOptions.WantURL = "https://go.dev".toList ∧
    sampleOptions.Update = true ∧
    sampleOptions.MaxConcurrency = 3 ∧
    sampleOptions.DebuggerURL = "ws://localhost:9222".toList ∧
    sampleOptions.OutputURL = "/tmp/out".toList :=
  have hmem : (globOf sampleArgs, sampleOptions) ∈
      (mainWith sampleEnv sampleFlags sampleArgs).calls := List.mem_singleton.mpr rfl
  have h := (configuration_hand_off sampleEnv sampleFlags sampleArgs).1 _ _ hmem
  ⟨hmem, h.1, h.2.2.1, h.2.2.2.1, h.2.2.2.2.1, h.2.2.2.2.2.1, h.2.2.2.2.2.2.1,
    h.2.2.2.2.2.2.2⟩

end Screentest
